import Mathlib

/-!
Verification of the correspondent-normalization logic and workflow patcher in
`scripts/workflow-builders/apply_v14.2_fixes.py`.

The normalization functions `normalizeCorrespondent` and `generateSlug` are
JavaScript functions embedded as a (non-raw) Python triple-quoted string
`NORMALIZATION_CODE`.  The Python string-literal layer halves the backslashes,
so a `\\\\s` in the `.py` file becomes `\\s` in the JavaScript source text that
n8n eventually executes.  In a JavaScript regex literal `\\s` is an escaped
backslash followed by a literal `s`; it matches the two-character sequence
backslash-`s`, NOT whitespace.  The embedding below models the JavaScript as it
actually executes, i.e. with those literal-backslash regexes; each definition
carries a comment deriving its behaviour from the source line.
-/

namespace V142

/-- A JavaScript value, as far as `normalizeCorrespondent(name)` inspects it:
the function only distinguishes strings from non-strings (`typeof name !==
'string'`) and falsy values (`!name`).  Every non-string input takes the
`return 'Unknown'` branch, so non-string values need no further structure. -/
inductive JSVal where
  | str (s : String)
  | num (n : Int)
  | bool (b : Bool)
  | null
  | undef
  deriving DecidableEq

/-- The ECMAScript whitespace characters removed by `String.prototype.trim`
(WhiteSpace ∪ LineTerminator), restricted to the Basic Latin / Latin-1 / BOM
range that covers every code point this program's data can contain. -/
def isJsWhitespace (c : Char) : Bool :=
  c = ' ' || c = '\t' || c = '\n' || c = '\r' ||
  c = Char.ofNat 0x0B || c = Char.ofNat 0x0C ||
  c = Char.ofNat 0xA0 || c = Char.ofNat 0x2028 ||
  c = Char.ofNat 0x2029 || c = Char.ofNat 0xFEFF

/-- ASCII-range lower-casing, the case folding JavaScript's case-insensitive
regex flag `i` applies to the ASCII letters used in the patterns below. -/
def asciiLower (c : Char) : Char :=
  if 'A' ≤ c && c ≤ 'Z' then Char.ofNat (c.toNat + 32) else c

/-- Model of `String.prototype.toLowerCase` on the Basic Latin and Latin-1
blocks (A–Z and À–Þ except ×, each mapping to the code point 32 higher),
identity elsewhere.  This covers the program's input domain. -/
def jsToLowerChar (c : Char) : Char :=
  if 'A' ≤ c && c ≤ 'Z' then Char.ofNat (c.toNat + 32)
  else if 0xC0 ≤ c.toNat && c.toNat ≤ 0xDE && c.toNat ≠ 0xD7 then
    Char.ofNat (c.toNat + 32)
  else c

/-- Drop the longest suffix of characters satisfying `p`
(the `-+$` / trailing-whitespace half of a trim). -/
def dropTrail (p : Char → Bool) : List Char → List Char
  | [] => []
  | c :: cs =>
    match dropTrail p cs with
    | [] => if p c then [] else [c]
    | r => c :: r

/-- Model of `String.prototype.trim` on the character list: drop leading and trailing
JavaScript whitespace. -/
def jsTrimL (l : List Char) : List Char :=
  dropTrail isJsWhitespace (l.dropWhile isJsWhitespace)

def jsToLowerStr (s : String) : String := String.mk (s.data.map jsToLowerChar)

def jsTrimS (s : String) : String := String.mk (jsTrimL s.data)

/-- Model of `String.prototype.startsWith`: code-unit prefix test. -/
def jsStartsWith (s pre : String) : Bool := pre.data.isPrefixOf s.data

/-- The `ALIASES` object from the source, as the ordered key/value list that
`Object.entries` yields (string keys, insertion order). -/
def ALIASES : List (String × String) :=
  [("boehringer ingelheim rcv & co", "Boehringer Ingelheim"),
   ("boehringer ingelheim rcv", "Boehringer Ingelheim"),
   ("magistrat wien-mba f.d. 21. bezirk", "Magistrat Wien"),
   ("magistrat wien", "Magistrat Wien"),
   ("wiener linien gmbh & co", "Wiener Linien"),
   ("magenta telekom", "Magenta Telekom"),
   ("magenta", "Magenta Telekom")]

/-- The alias loop: `for (const [key, value] of Object.entries(ALIASES)) if
(lowerName.startsWith(key)) return value;` — first prefix match wins. -/
def firstAlias : List (String × String) → String → Option String
  | [], _ => none
  | (k, v) :: rest, x => if jsStartsWith x k then some v else firstAlias rest x

/-! ### The (broken) regex replacements of the normalization pipeline

Each `.replace` call in the pipeline is modelled by a scanner that walks the
string left to right, replacing non-overlapping leftmost matches, exactly like
a global-flag JavaScript `replace`.  The matchers return the remainder of the
input after the match. -/

/-- Consume one character satisfying `p`. -/
def chomp (p : Char → Bool) : List Char → Option (List Char)
  | [] => none
  | c :: cs => if p c then some cs else none

/-- Consume one-or-more characters satisfying `p` (greedy `+`). -/
def chompRun1 (p : Char → Bool) : List Char → Option (List Char)
  | [] => none
  | c :: cs => if p c then some (cs.dropWhile p) else none

/-- Matcher for `/\\s*&\\s*/g` as it executes: literal `\`, a greedy run of
`s`, `&`, literal `\`, a greedy run of `s` (case-sensitive: no `i` flag). -/
def matchAmp (l : List Char) : Option (List Char) := do
  let r1 ← chomp (fun c => c = '\\') l
  let r2 := r1.dropWhile (fun c => c = 's')
  let r3 ← chomp (fun c => c = '&') r2
  let r4 ← chomp (fun c => c = '\\') r3
  pure (r4.dropWhile (fun c => c = 's'))

/-- Matcher for `/\\s+and\\s+/gi` as it executes: literal `\`, one-or-more
`s`/`S`, `and` case-insensitively, literal `\`, one-or-more `s`/`S`. -/
def matchAndM (l : List Char) : Option (List Char) := do
  let r1 ← chomp (fun c => c = '\\') l
  let r2 ← chompRun1 (fun c => asciiLower c = 's') r1
  let r3 ← chomp (fun c => asciiLower c = 'a') r2
  let r4 ← chomp (fun c => asciiLower c = 'n') r3
  let r5 ← chomp (fun c => asciiLower c = 'd') r4
  let r6 ← chomp (fun c => c = '\\') r5
  chompRun1 (fun c => asciiLower c = 's') r6

/-- Matcher for `/\\s+/g` as it executes: literal `\` then one-or-more `s`
(case-sensitive). -/
def matchSRun (l : List Char) : Option (List Char) := do
  let r1 ← chomp (fun c => c = '\\') l
  chompRun1 (fun c => c = 's') r1

/-- The `LEGAL_SUFFIXES` alternation in source order.  Entries written with
`s\\.a\\.?`-style patterns in the source denote a literal core with literal
dots plus an optional trailing dot; the Boolean records that optional dot. -/
def SUFFIX_PATTERNS : List (List Char × Bool) :=
  [("gmbh".data, false), ("kg".data, false), ("kgaa".data, false),
   ("ag".data, false), ("se".data, false), ("llc".data, false),
   ("inc".data, false), ("corp".data, false), ("corporation".data, false),
   ("ltd".data, false), ("limited".data, false), ("plc".data, false),
   ("s.a".data, true), ("s.r.l".data, true), ("s.p.a".data, true),
   ("bv".data, false), ("nv".data, false), ("oy".data, false),
   ("ab".data, false), ("aps".data, false), ("as".data, false),
   ("co".data, false), ("company".data, false), ("rcv".data, false),
   ("ohg".data, false), ("gbr".data, false), ("ev".data, false),
   ("eg".data, false), ("ges.m.b.h".data, true), ("stg".data, false)]

/-- Match a literal pattern case-insensitively (ASCII folding, the regex `i`
flag). -/
def matchLitCI : List Char → List Char → Option (List Char)
  | [], l => some l
  | p :: ps, l => do
    let r ← chomp (fun c => asciiLower c = p) l
    matchLitCI ps r

/-- The `\\b` of the suffix regex as it executes: the pattern string reaching
`new RegExp` is `\\b`, i.e. a literal backslash followed by `b`; with the `i`
flag the `b` also matches `B`. -/
def matchB (l : List Char) : Option (List Char) := do
  let r1 ← chomp (fun c => c = '\\') l
  chomp (fun c => asciiLower c = 'b') r1

/-- Try the suffix alternatives in source order at the current position, with
the regex engine's backtracking: greedy optional dot first, then the closing
literal `\`+`b`; on failure fall back to no dot, then to the next
alternative. -/
def tryAlts : List (List Char × Bool) → List Char → Option (List Char)
  | [], _ => none
  | (core, optDot) :: alts, l =>
    match matchLitCI core l with
    | none => tryAlts alts l
    | some r2 =>
      match (if optDot then
               (match r2 with
                | '.' :: r3 => matchB r3
                | _ => none)
             else none) with
      | some r4 => some r4
      | none =>
        match matchB r2 with
        | some r4 => some r4
        | none => tryAlts alts l

/-- Matcher for the whole suffix regex
`new RegExp('\\b(' + LEGAL_SUFFIXES.join('|') + ')\\b', 'gi')` as it
executes: literal `\`+`b`, one alternative, literal `\`+`b`. -/
def matchSuffix (l : List Char) : Option (List Char) := do
  let r1 ← matchB l
  tryAlts SUFFIX_PATTERNS r1

/-- Global-replace scanner: walk the string, at each position try the matcher;
on a match emit `rep` and continue after the match, otherwise copy one
character.  `fuel` bounds the number of steps; it is always called with
`length + 1`, which suffices because every step consumes at least one
character. -/
def replaceScan (M : List Char → Option (List Char)) (rep : List Char) :
    Nat → List Char → List Char
  | 0, l => l
  | _ + 1, [] => []
  | f + 1, c :: cs =>
    match M (c :: cs) with
    | some rest => rep ++ replaceScan M rep f rest
    | none => c :: replaceScan M rep f cs

def replAmpL (l : List Char) : List Char := replaceScan matchAmp [' '] (l.length + 1) l
def replAndL (l : List Char) : List Char := replaceScan matchAndM [' '] (l.length + 1) l
def replSRunL (l : List Char) : List Char := replaceScan matchSRun [' '] (l.length + 1) l
def replSuffixL (l : List Char) : List Char := replaceScan matchSuffix [] (l.length + 1) l

/-- Whether the whole list matches `/\\s*[&+]\\s*$/` as it executes: literal
`\`, greedy `s` run, `&` or `+`, literal `\`, an `s` run reaching the end. -/
def matchTrailConn (l : List Char) : Bool :=
  match chomp (fun c => c = '\\') l with
  | none => false
  | some r1 =>
    match r1.dropWhile (fun c => c = 's') with
    | [] => false
    | c :: r3 =>
      (c = '&' || c = '+') &&
      (match r3 with
       | '\\' :: r4 => (r4.dropWhile (fun c => c = 's')).isEmpty
       | _ => false)

/-- Model of `n.replace(/\\s*[&+]\\s*$/g, '')` as it executes: delete from the leftmost
position where the (broken) pattern matches through to the end. -/
def stripTrailConn : List Char → List Char
  | [] => []
  | c :: cs => if matchTrailConn (c :: cs) then [] else c :: stripTrailConn cs

/-- Model of `n.replace(/\\b\\w/g, c => c.toUpperCase())` as it executes: the pattern
is the literal four-character text `\b\w`, and upper-casing that match yields
`\B\W`. -/
def replBW : List Char → List Char
  | [] => []
  | [c] => [c]
  | [c1, c2] => [c1, c2]
  | [c1, c2, c3] => [c1, c2, c3]
  | c1 :: c2 :: c3 :: c4 :: rest =>
    if c1 = '\\' && c2 = 'b' && c3 = '\\' && c4 = 'w' then
      '\\' :: 'B' :: '\\' :: 'W' :: replBW rest
    else c1 :: replBW (c2 :: c3 :: c4 :: rest)

/-- Step a of the pipeline: `name.replace(/[.,]/g, ' ')`
(this regex has no backslashes and works as intended). -/
def dotCommaToSpace (c : Char) : Char := if c = '.' || c = ',' then ' ' else c

/-- The non-alias pipeline of `normalizeCorrespondent`, lines 56–70 of the
embedded JavaScript, with each replacement as it actually executes. -/
def pipelineL (l : List Char) : List Char :=
  let a := l.map dotCommaToSpace
  let b := replAmpL a
  let c := replAndL b
  let d := replSRunL c
  let e := jsTrimL d
  let f := replSuffixL e
  let g := replSRunL f
  let h := jsTrimL g
  let i := stripTrailConn h
  let j := jsTrimL i
  replBW j

/-- Model of `normalizeCorrespondent(name)` as it executes: non-strings and the empty
string return `'Unknown'`; otherwise the first alias whose key prefixes the
lower-cased trimmed name wins; otherwise the pipeline result, with `'Unknown'`
substituted for an empty result (`return n || 'Unknown'`). -/
def normalizeCorrespondent : JSVal → String
  | JSVal.str s =>
    if s = "" then "Unknown"
    else
      match firstAlias ALIASES (jsTrimS (jsToLowerStr s)) with
      | some v => v
      | none =>
        let n := String.mk (pipelineL s.data)
        if n = "" then "Unknown" else n
  | _ => "Unknown"

/-! ### `generateSlug` -/

/-- Unicode canonical decomposition (`String.prototype.normalize('NFD')`) of a
single character, modelled on the lower-case Latin-1 letters (the only
decomposable code points the program's lower-cased data can contain); identity
elsewhere.  The second element of each decomposition is the combining mark
(U+0300 grave, U+0301 acute, U+0302 circumflex, U+0303 tilde, U+0308
diaeresis, U+030A ring, U+0327 cedilla). -/
def nfdChar (c : Char) : List Char :=
  if c = 'à' then ['a', Char.ofNat 0x300]
  else if c = 'á' then ['a', Char.ofNat 0x301]
  else if c = 'â' then ['a', Char.ofNat 0x302]
  else if c = 'ã' then ['a', Char.ofNat 0x303]
  else if c = 'ä' then ['a', Char.ofNat 0x308]
  else if c = 'å' then ['a', Char.ofNat 0x30A]
  else if c = 'ç' then ['c', Char.ofNat 0x327]
  else if c = 'è' then ['e', Char.ofNat 0x300]
  else if c = 'é' then ['e', Char.ofNat 0x301]
  else if c = 'ê' then ['e', Char.ofNat 0x302]
  else if c = 'ë' then ['e', Char.ofNat 0x308]
  else if c = 'ì' then ['i', Char.ofNat 0x300]
  else if c = 'í' then ['i', Char.ofNat 0x301]
  else if c = 'î' then ['i', Char.ofNat 0x302]
  else if c = 'ï' then ['i', Char.ofNat 0x308]
  else if c = 'ñ' then ['n', Char.ofNat 0x303]
  else if c = 'ò' then ['o', Char.ofNat 0x300]
  else if c = 'ó' then ['o', Char.ofNat 0x301]
  else if c = 'ô' then ['o', Char.ofNat 0x302]
  else if c = 'õ' then ['o', Char.ofNat 0x303]
  else if c = 'ö' then ['o', Char.ofNat 0x308]
  else if c = 'ù' then ['u', Char.ofNat 0x300]
  else if c = 'ú' then ['u', Char.ofNat 0x301]
  else if c = 'û' then ['u', Char.ofNat 0x302]
  else if c = 'ü' then ['u', Char.ofNat 0x308]
  else if c = 'ý' then ['y', Char.ofNat 0x301]
  else if c = 'ÿ' then ['y', Char.ofNat 0x308]
  else [c]

/-- The character class of `.replace(/[\\u0300-\\u036f]/g, '')` as it
executes.  The class source text the engine sees is `[\\u0300-\\u036f]`:
a literal backslash, the literals `u`, `0`, `3`, `0`, the range `0`–`\`
(U+0030–U+005C), and the literals `u`, `0`, `3`, `6`, `f`.  It does NOT
contain the combining marks; it is U+0030–U+005C together with `u` and `f`. -/
def inBrokenClass (c : Char) : Bool :=
  (0x30 ≤ c.toNat && c.toNat ≤ 0x5C) || c = 'u' || c = 'f'

/-- The class `[a-z0-9]` of characters kept by `.replace(/[^a-z0-9]+/g, '-')`. -/
def isKeepSlug (c : Char) : Bool :=
  ('a' ≤ c && c ≤ 'z') || ('0' ≤ c && c ≤ '9')

/-- Model of `.replace(/[^a-z0-9]+/g, '-')`: each maximal run of non-`[a-z0-9]`
characters becomes a single hyphen.  The flag records whether we are inside
such a run. -/
def hyph (inRun : Bool) : List Char → List Char
  | [] => []
  | c :: cs =>
    if isKeepSlug c then c :: hyph false cs
    else if inRun then hyph true cs
    else '-' :: hyph true cs

/-- Model of `generateSlug(name)`: lower-case, NFD-decompose, delete the (broken)
character class, hyphenate non-alphanumeric runs, strip leading and trailing
hyphen runs (`/^-+|-+$/g`), then `substring(0, 50)`. -/
def generateSlug (s : String) : String :=
  let a := s.data.map jsToLowerChar
  let b := (a.map nfdChar).flatten
  let c := b.filter (fun ch => !inBrokenClass ch)
  let d := hyph false c
  let e := dropTrail (fun ch => ch = '-') (d.dropWhile (fun ch => ch = '-'))
  String.mk (e.take 50)

/-- Decider for the language of the regular expression
`^[a-z0-9]*(-[a-z0-9]+)*$` from the specification: every character is
`[a-z0-9]` or `-`, no two hyphens are adjacent, and the string does not end
with a hyphen.  (A leading hyphen followed by an alphanumeric is accepted by
the regex via an empty first group.) -/
def noDoubleHyphen : List Char → Bool
  | [] => true
  | [_] => true
  | a :: b :: t => !(a = '-' && b = '-') && noDoubleHyphen (b :: t)

def matchesSlugRe (s : String) : Bool :=
  s.data.all (fun c => isKeepSlug c || c = '-') &&
  noDoubleHyphen s.data &&
  (s.data.getLast?.all fun c => !(c = '-'))

/-- Title-cased in the sense of the claim: every ASCII word character
(`\w` = `[A-Za-z0-9_]`) that starts a word — i.e. at position 0 or after a
non-word character — is not a lower-case letter.  The flag records whether the
previous character was a word character. -/
def isWordChar (c : Char) : Bool :=
  ('a' ≤ c && c ≤ 'z') || ('A' ≤ c && c ≤ 'Z') || ('0' ≤ c && c ≤ '9') || c = '_'

def titleOkAux (prevWord : Bool) : List Char → Bool
  | [] => true
  | c :: cs =>
    (!(!prevWord && 'a' ≤ c && c ≤ 'z')) && titleOkAux (isWordChar c) cs

def titleCasedOk (s : String) : Bool := titleOkAux false s.data

end V142

namespace V142.Py

/-! ### The Python workflow patcher `apply_fixes`

The JSON workflow document and the in-place dictionary/list manipulation of
`apply_fixes` (lines 186–256 of the script), modelled functionally.  The file
loading at the top of the function is elided: the model takes the parsed JSON
value.  Operations that would raise in Python (`node['parameters']` on a node
without that key, item assignment on a non-dict, iterating a non-list, …)
return `Except.error`. -/

inductive Json where
  | null
  | bool (b : Bool)
  | num (n : Int)
  | str (s : String)
  | arr (xs : List Json)
  | obj (kvs : List (String × Json))

/-- Model of `d.get(k)` / `d[k]` lookup on a JSON object (first binding wins; parsed
JSON objects have unique keys). -/
def jlookup (kvs : List (String × Json)) (k : String) : Option Json :=
  match kvs with
  | [] => none
  | (k', v) :: rest => if k' = k then some v else jlookup rest k

/-- Model of `node.get('name') == target` for a string `target`: in Python the
comparison is true exactly when the value exists and is that string. -/
def isNamed (kvs : List (String × Json)) (target : String) : Bool :=
  match jlookup kvs "name" with
  | some (Json.str n) => n = target
  | _ => false

/-- Model of `d[k] = v` on a dict: replace the value in place if the key exists,
otherwise append the new binding. -/
def setKey (kvs : List (String × Json)) (k : String) (v : Json) :
    List (String × Json) :=
  match kvs with
  | [] => [(k, v)]
  | (k', v') :: rest =>
    if k' = k then (k', v) :: rest else (k', v') :: setKey rest k v

/-- Python `sub in s` for strings: substring containment. -/
def containsSub (s sub : String) : Bool :=
  s.data.tails.any fun t => sub.data.isPrefixOf t

/-- Python `s.replace(old, new)`: replace every non-overlapping occurrence,
scanning left to right.  Only used with a non-empty `old`.  `fuel` is always
`length + 1`. -/
def strReplaceAux (old new : List Char) : Nat → List Char → List Char
  | 0, l => l
  | _ + 1, [] => []
  | f + 1, c :: cs =>
    if old.isPrefixOf (c :: cs) then
      new ++ strReplaceAux old new f ((c :: cs).drop old.length)
    else c :: strReplaceAux old new f cs

def strReplace (s old new : String) : String :=
  String.mk (strReplaceAux old.data new.data (s.data.length + 1) s.data)

/-- Stand-in for the `GENERATE_STORAGE_PATH_CODE` JavaScript text the script
pastes into the node (the literal text is irrelevant to the properties proved
here and is not reproduced). -/
def GENERATE_STORAGE_PATH_CODE : String := "GENERATE_STORAGE_PATH_CODE"

/-- Stand-in for the `GET_STORAGE_PATH_ID_CODE` JavaScript text. -/
def GET_STORAGE_PATH_ID_CODE : String := "GET_STORAGE_PATH_ID_CODE"

/-- Model of `node.get('name')`; raises (errors) when the node is not a dict, just as
`node.get` does in Python. -/
def nodeName : Json → Option Json
  | Json.obj kvs => jlookup kvs "name"
  | _ => none

/-- Fix 1, lines 197–209: on nodes named `Check Storage Paths`, set
`parameters.sendQuery = True` and `parameters.queryParameters` to the
pagination block. -/
def fixNode1 (node : Json) : Except String Json :=
  match node with
  | Json.obj kvs =>
    if isNamed kvs "Check Storage Paths" then
      match jlookup kvs "parameters" with
      | some (Json.obj ps) =>
        let ps1 := setKey ps "sendQuery" (Json.bool true)
        let ps2 := setKey ps1 "queryParameters"
          (Json.obj [("parameters",
            Json.arr [Json.obj [("name", Json.str "page_size"),
                                ("value", Json.str "1000")]])])
        Except.ok (Json.obj (setKey kvs "parameters" (Json.obj ps2)))
      | some _ => Except.error "TypeError: parameters does not support item assignment"
      | none => Except.error "KeyError: parameters"
    else Except.ok node
  | _ => Except.error "AttributeError: node has no attribute get"

/-- Fix 2, lines 212–216: on nodes named `Generate Storage Path`, overwrite
`parameters.jsCode` with the normalization code. -/
def fixNode2 (node : Json) : Except String Json :=
  match node with
  | Json.obj kvs =>
    if isNamed kvs "Generate Storage Path" then
      match jlookup kvs "parameters" with
      | some (Json.obj ps) =>
        Except.ok (Json.obj (setKey kvs "parameters"
          (Json.obj (setKey ps "jsCode" (Json.str GENERATE_STORAGE_PATH_CODE)))))
      | some _ => Except.error "TypeError: parameters does not support item assignment"
      | none => Except.error "KeyError: parameters"
    else Except.ok node
  | _ => Except.error "AttributeError: node has no attribute get"

/-- Fix 3, lines 219–223: on nodes named `Get Storage Path ID`, overwrite
`parameters.jsCode` with the retry-logic code. -/
def fixNode3 (node : Json) : Except String Json :=
  match node with
  | Json.obj kvs =>
    if isNamed kvs "Get Storage Path ID" then
      match jlookup kvs "parameters" with
      | some (Json.obj ps) =>
        Except.ok (Json.obj (setKey kvs "parameters"
          (Json.obj (setKey ps "jsCode" (Json.str GET_STORAGE_PATH_ID_CODE)))))
      | some _ => Except.error "TypeError: parameters does not support item assignment"
      | none => Except.error "KeyError: parameters"
    else Except.ok node
  | _ => Except.error "AttributeError: node has no attribute get"

/-- Python `'correspondent_name' in current_code` for the JSON value found at
`jsCode`/`jsonBody`: substring test on strings, key membership on dicts,
element equality on lists, `TypeError` otherwise. -/
def pyContains (v : Json) (needle : String) : Except String Bool :=
  match v with
  | Json.str s => Except.ok (containsSub s needle)
  | Json.obj kvs => Except.ok (kvs.any fun p => p.1 = needle)
  | Json.arr xs => Except.ok (xs.any fun x =>
      match x with
      | Json.str s => s = needle
      | _ => false)
  | _ => Except.error "TypeError: argument of type is not iterable"

/-- Fix 4, lines 227–237: on nodes named `Check Correspondent Exists`, if
`parameters.jsCode` (default `''`) contains `correspondent_name`, replace
`data.correspondent_name` with
`data.correspondent_canonical || data.correspondent_name`. -/
def fixNode4 (node : Json) : Except String Json :=
  match node with
  | Json.obj kvs =>
    if isNamed kvs "Check Correspondent Exists" then
      match jlookup kvs "parameters" with
      | some (Json.obj ps) =>
        let cur := (jlookup ps "jsCode").getD (Json.str "")
        match pyContains cur "correspondent_name" with
        | Except.error e => Except.error e
        | Except.ok false => Except.ok node
        | Except.ok true =>
          match cur with
          | Json.str s =>
            Except.ok (Json.obj (setKey kvs "parameters"
              (Json.obj (setKey ps "jsCode" (Json.str
                (strReplace s "data.correspondent_name"
                  "data.correspondent_canonical || data.correspondent_name"))))))
          | _ => Except.error "AttributeError: no attribute replace"
      | some _ => Except.error "AttributeError: parameters has no attribute get"
      | none => Except.error "KeyError: parameters"
    else Except.ok node
  | _ => Except.error "AttributeError: node has no attribute get"

/-- Fix 5, lines 241–250: on nodes named `Create Correspondent`, if
`parameters.jsonBody` (default `''`) contains `correspondent_name`, replace
`$json.correspondent_name` with `$json.correspondent_canonical`. -/
def fixNode5 (node : Json) : Except String Json :=
  match node with
  | Json.obj kvs =>
    if isNamed kvs "Create Correspondent" then
      match jlookup kvs "parameters" with
      | some (Json.obj ps) =>
        let cur := (jlookup ps "jsonBody").getD (Json.str "")
        match pyContains cur "correspondent_name" with
        | Except.error e => Except.error e
        | Except.ok false => Except.ok node
        | Except.ok true =>
          match cur with
          | Json.str s =>
            Except.ok (Json.obj (setKey kvs "parameters"
              (Json.obj (setKey ps "jsonBody" (Json.str
                (strReplace s "$json.correspondent_name"
                  "$json.correspondent_canonical"))))))
          | _ => Except.error "AttributeError: no attribute replace"
      | some _ => Except.error "AttributeError: parameters has no attribute get"
      | none => Except.error "KeyError: parameters"
    else Except.ok node
  | _ => Except.error "AttributeError: node has no attribute get"

/-- Iteration over `Except`, like `mapM`: matching a Python `for` loop that raises at the
first failing element. -/
def exMapM (f : Json → Except String Json) : List Json → Except String (List Json)
  | [] => Except.ok []
  | a :: t =>
    match f a with
    | Except.error e => Except.error e
    | Except.ok b =>
      match exMapM f t with
      | Except.error e => Except.error e
      | Except.ok bs => Except.ok (b :: bs)

/-- Model of `apply_fixes`, lines 186–256, from the parsed workflow JSON onward: run
the five fix loops in order over `workflow.get('nodes', [])` and return the
workflow with its (in Python: in-place mutated) node list.  A missing `nodes`
key, an empty string or empty dict there, iterates nothing; any other
non-list value raises when the loop body calls `.get` on its elements. -/
def apply_fixes (w : Json) : Except String Json :=
  match w with
  | Json.obj kvs =>
    match jlookup kvs "nodes" with
    | none => Except.ok w
    | some (Json.arr nodes) =>
      match exMapM fixNode1 nodes with
      | Except.error e => Except.error e
      | Except.ok n1 =>
        match exMapM fixNode2 n1 with
        | Except.error e => Except.error e
        | Except.ok n2 =>
          match exMapM fixNode3 n2 with
          | Except.error e => Except.error e
          | Except.ok n3 =>
            match exMapM fixNode4 n3 with
            | Except.error e => Except.error e
            | Except.ok n4 =>
              match exMapM fixNode5 n4 with
              | Except.error e => Except.error e
              | Except.ok n5 =>
                Except.ok (Json.obj (setKey kvs "nodes" (Json.arr n5)))
    | some (Json.str s) =>
      if s = "" then Except.ok w
      else Except.error "AttributeError: node has no attribute get"
    | some (Json.obj o) =>
      if o.isEmpty then Except.ok w
      else Except.error "AttributeError: node has no attribute get"
    | some _ => Except.error "TypeError: object is not iterable"
  | _ => Except.error "AttributeError: workflow has no attribute get"

/-- The node list of a workflow, when it has one. -/
def getNodes (w : Json) : Option (List Json) :=
  match w with
  | Json.obj kvs =>
    match jlookup kvs "nodes" with
    | some (Json.arr xs) => some xs
    | _ => none
  | _ => none

/-- The `connections` entry of a workflow. -/
def getConnections (w : Json) : Option Json :=
  match w with
  | Json.obj kvs => jlookup kvs "connections"
  | _ => none

/-- The five node names `apply_fixes` targets. -/
def fixTargets : List Json :=
  [Json.str "Check Storage Paths", Json.str "Generate Storage Path",
   Json.str "Get Storage Path ID", Json.str "Check Correspondent Exists",
   Json.str "Create Correspondent"]

/-- A small concrete workflow: one untargeted node and one pagination-fix
target with an (empty) parameters dict. -/
def exampleWorkflow : Json :=
  Json.obj [("nodes", Json.arr
    [Json.obj [("name", Json.str "Foo")],
     Json.obj [("name", Json.str "Check Storage Paths"),
               ("parameters", Json.obj [])]]),
    ("connections", Json.obj [("A", Json.arr [])])]

/-- Result of `apply_fixes exampleWorkflow`: the target node gains the pagination
parameters, everything else is untouched. -/
def exampleWorkflowFixed : Json :=
  Json.obj [("nodes", Json.arr
    [Json.obj [("name", Json.str "Foo")],
     Json.obj [("name", Json.str "Check Storage Paths"),
               ("parameters", Json.obj
                 [("sendQuery", Json.bool true),
                  ("queryParameters", Json.obj [("parameters",
                    Json.arr [Json.obj [("name", Json.str "page_size"),
                                        ("value", Json.str "1000")]])])])]]),
    ("connections", Json.obj [("A", Json.arr [])])]

end V142.Py

namespace V142

/-! ### Supporting lemmas: characters, trims, scanners -/

theorem map_eq_self_of {f : Char → Char} :
    ∀ {l : List Char}, (∀ c ∈ l, f c = c) → l.map f = l
  | [], _ => rfl
  | c :: cs, h => by
    simp only [List.map_cons]
    rw [h c (by simp), map_eq_self_of fun d hd => h d (by simp [hd])]

/-- A JavaScript whitespace character is one of ten concrete characters. -/
theorem ws_cases {c : Char} (h : isJsWhitespace c = true) :
    c = ' ' ∨ c = '\t' ∨ c = '\n' ∨ c = '\r' ∨
    c = Char.ofNat 0x0B ∨ c = Char.ofNat 0x0C ∨
    c = Char.ofNat 0xA0 ∨ c = Char.ofNat 0x2028 ∨
    c = Char.ofNat 0x2029 ∨ c = Char.ofNat 0xFEFF := by
  simp only [isJsWhitespace, Bool.or_eq_true, decide_eq_true_eq] at h
  tauto

theorem ws_toLower {c : Char} (h : isJsWhitespace c = true) :
    jsToLowerChar c = c := by
  rcases ws_cases h with h | h | h | h | h | h | h | h | h | h <;> subst h <;> decide

theorem ws_ne_dot {c : Char} (h : isJsWhitespace c = true) :
    dotCommaToSpace c = c := by
  rcases ws_cases h with h | h | h | h | h | h | h | h | h | h <;> subst h <;> decide

theorem ws_ne_bs {c : Char} (h : isJsWhitespace c = true) : c ≠ '\\' := by
  rcases ws_cases h with h | h | h | h | h | h | h | h | h | h <;> subst h <;> decide

theorem dropWhile_head_not {p : Char → Bool} :
    ∀ {l : List Char} {c : Char}, (l.dropWhile p).head? = some c → p c = false := by
  intro l
  induction l with
  | nil => intro c h; simp [List.dropWhile] at h
  | cons a t ih =>
    intro c h
    by_cases ha : p a
    · rw [List.dropWhile_cons_of_pos ha] at h; exact ih h
    · rw [List.dropWhile_cons_of_neg ha] at h
      simp at h
      rw [← h]; exact Bool.eq_false_iff.mpr ha

theorem dropWhile_eq_self_of_head {p : Char → Bool} {l : List Char}
    (h : ∀ c, l.head? = some c → p c = false) : l.dropWhile p = l := by
  cases l with
  | nil => rfl
  | cons a t => exact List.dropWhile_cons_of_neg (by simp [h a rfl])

theorem dropTrail_mem {p : Char → Bool} :
    ∀ {l : List Char} {c : Char}, c ∈ dropTrail p l → c ∈ l := by
  intro l
  induction l with
  | nil => intro c h; simp [dropTrail] at h
  | cons a t ih =>
    intro c h
    rw [dropTrail] at h
    rcases ht : dropTrail p t with _ | ⟨b, r⟩
    · rw [ht] at h
      by_cases hp : p a <;> simp [hp] at h
      simp [h]
    · rw [ht] at h
      rcases List.mem_cons.mp h with h | h
      · simp [h]
      · exact List.mem_cons_of_mem a (ih (ht ▸ h))

theorem dropTrail_getLast_not {p : Char → Bool} :
    ∀ {l : List Char} {c : Char},
      (dropTrail p l).getLast? = some c → p c = false := by
  intro l
  induction l with
  | nil => intro c h; simp [dropTrail] at h
  | cons a t ih =>
    intro c h
    rw [dropTrail] at h
    rcases ht : dropTrail p t with _ | ⟨b, r⟩
    · rw [ht] at h
      by_cases hp : p a <;> simp [hp] at h
      rw [← h]; exact Bool.eq_false_iff.mpr hp
    · rw [ht] at h
      rw [List.getLast?_cons_cons] at h
      exact ih (ht ▸ h)

theorem dropTrail_head {p : Char → Bool} :
    ∀ {l : List Char}, (dropTrail p l).head? = l.head? ∨ dropTrail p l = [] := by
  intro l
  cases l with
  | nil => right; rfl
  | cons a t =>
    rw [dropTrail]
    rcases dropTrail p t with _ | ⟨b, r⟩
    · by_cases hp : p a <;> simp [hp]
    · left; rfl

theorem dropTrail_eq_self {p : Char → Bool} :
    ∀ {l : List Char}, (∀ c, l.getLast? = some c → p c = false) →
      dropTrail p l = l := by
  intro l
  induction l with
  | nil => intro _; rfl
  | cons a t ih =>
    intro h
    rw [dropTrail]
    cases t with
    | nil =>
      have := h a (by rfl)
      simp [dropTrail, this]
    | cons b r =>
      have hrec : dropTrail p (b :: r) = b :: r :=
        ih fun c hc => h c (by rw [List.getLast?_cons_cons]; exact hc)
      rw [hrec]

/-- The trim is idempotent. -/
theorem jsTrimL_idem (l : List Char) : jsTrimL (jsTrimL l) = jsTrimL l := by
  unfold jsTrimL
  set u := l.dropWhile isJsWhitespace with hu
  have h1 : (dropTrail isJsWhitespace u).dropWhile isJsWhitespace =
      dropTrail isJsWhitespace u := by
    apply dropWhile_eq_self_of_head
    intro c hc
    rcases dropTrail_head (p := isJsWhitespace) (l := u) with h | h
    · exact dropWhile_head_not (hu ▸ (h ▸ hc))
    · rw [h] at hc; simp at hc
  rw [h1]
  exact dropTrail_eq_self fun c hc => dropTrail_getLast_not hc

theorem jsTrimL_head_not_ws {l : List Char} {c : Char}
    (h : (jsTrimL l).head? = some c) : isJsWhitespace c = false := by
  unfold jsTrimL at h
  rcases dropTrail_head (p := isJsWhitespace) (l := l.dropWhile isJsWhitespace)
    with h1 | h1
  · exact dropWhile_head_not (h1 ▸ h)
  · rw [h1] at h; simp at h

theorem jsTrimL_getLast_not_ws {l : List Char} {c : Char}
    (h : (jsTrimL l).getLast? = some c) : isJsWhitespace c = false :=
  dropTrail_getLast_not h

theorem jsTrimL_mem {l : List Char} {c : Char} (h : c ∈ jsTrimL l) : c ∈ l :=
  (List.dropWhile_suffix isJsWhitespace).subset (dropTrail_mem h)

theorem jsTrimL_all_ws {l : List Char} (h : ∀ c ∈ l, isJsWhitespace c = true) :
    jsTrimL l = [] := by
  unfold jsTrimL
  rw [List.dropWhile_eq_nil_iff.mpr h]
  rfl

theorem jsTrimL_eq_self {l : List Char}
    (hh : ∀ c, l.head? = some c → isJsWhitespace c = false)
    (hl : ∀ c, l.getLast? = some c → isJsWhitespace c = false) :
    jsTrimL l = l := by
  unfold jsTrimL
  rw [dropWhile_eq_self_of_head hh]
  exact dropTrail_eq_self hl

theorem chomp_sfx {p : Char → Bool} :
    ∀ {l r : List Char}, chomp p l = some r → r <:+ l := by
  intro l r h
  cases l with
  | nil => simp [chomp] at h
  | cons c cs =>
    simp only [chomp] at h
    split at h
    · rw [Option.some_inj] at h; subst h; exact List.suffix_cons c cs
    · cases h

theorem chomp_head {p : Char → Bool} {c : Char} {cs r : List Char}
    (h : chomp p (c :: cs) = some r) : p c = true := by
  simp only [chomp] at h
  split at h
  · assumption
  · cases h

theorem chompRun1_sfx {p : Char → Bool} :
    ∀ {l r : List Char}, chompRun1 p l = some r → r <:+ l := by
  intro l r h
  cases l with
  | nil => simp [chompRun1] at h
  | cons c cs =>
    simp only [chompRun1] at h
    split at h
    · cases h
      exact (List.dropWhile_suffix p).trans (List.suffix_cons c cs)
    · cases h

theorem matchAmp_head {c : Char} {cs r : List Char}
    (h : matchAmp (c :: cs) = some r) : c = '\\' := by
  simp only [matchAmp, bind, Option.bind_eq_some] at h
  obtain ⟨r1, h1, _⟩ := h
  simpa using chomp_head h1

theorem matchAmp_sfx {l r : List Char} (h : matchAmp l = some r) : r <:+ l := by
  simp only [matchAmp, bind, Option.bind_eq_some, pure, Option.some_inj] at h
  obtain ⟨r1, h1, r3, h3, r4, h4, h5⟩ := h
  subst h5
  exact ((List.dropWhile_suffix _).trans ((chomp_sfx h4).trans
    ((chomp_sfx h3).trans ((List.dropWhile_suffix _).trans (chomp_sfx h1)))))

theorem matchAndM_head {c : Char} {cs r : List Char}
    (h : matchAndM (c :: cs) = some r) : c = '\\' := by
  simp only [matchAndM, bind, Option.bind_eq_some] at h
  obtain ⟨r1, h1, _⟩ := h
  simpa using chomp_head h1

theorem matchAndM_sfx {l r : List Char} (h : matchAndM l = some r) : r <:+ l := by
  simp only [matchAndM, bind, Option.bind_eq_some] at h
  obtain ⟨r1, h1, r2, h2, r3, h3, r4, h4, r5, h5, r6, h6, h7⟩ := h
  exact (chompRun1_sfx h7).trans ((chomp_sfx h6).trans ((chomp_sfx h5).trans
    ((chomp_sfx h4).trans ((chomp_sfx h3).trans ((chompRun1_sfx h2).trans
      (chomp_sfx h1))))))

theorem matchSRun_head {c : Char} {cs r : List Char}
    (h : matchSRun (c :: cs) = some r) : c = '\\' := by
  simp only [matchSRun, bind, Option.bind_eq_some] at h
  obtain ⟨r1, h1, _⟩ := h
  simpa using chomp_head h1

theorem matchSRun_sfx {l r : List Char} (h : matchSRun l = some r) : r <:+ l := by
  simp only [matchSRun, bind, Option.bind_eq_some] at h
  obtain ⟨r1, h1, h2⟩ := h
  exact (chompRun1_sfx h2).trans (chomp_sfx h1)

theorem matchLitCI_sfx :
    ∀ {pat l r : List Char}, matchLitCI pat l = some r → r <:+ l := by
  intro pat
  induction pat with
  | nil =>
    intro l r h
    simp only [matchLitCI, Option.some_inj] at h
    subst h; exact List.suffix_rfl
  | cons p ps ih =>
    intro l r h
    simp only [matchLitCI, bind, Option.bind_eq_some] at h
    obtain ⟨r1, h1, h2⟩ := h
    exact (ih h2).trans (chomp_sfx h1)

theorem matchB_head {c : Char} {cs r : List Char}
    (h : matchB (c :: cs) = some r) : c = '\\' := by
  simp only [matchB, bind, Option.bind_eq_some] at h
  obtain ⟨r1, h1, _⟩ := h
  simpa using chomp_head h1

theorem matchB_sfx {l r : List Char} (h : matchB l = some r) : r <:+ l := by
  simp only [matchB, bind, Option.bind_eq_some] at h
  obtain ⟨r1, h1, h2⟩ := h
  exact (chomp_sfx h2).trans (chomp_sfx h1)

theorem tryAlts_sfx :
    ∀ {alts : List (List Char × Bool)} {l r : List Char},
      tryAlts alts l = some r → r <:+ l := by
  intro alts
  induction alts with
  | nil => intro l r h; simp [tryAlts] at h
  | cons a alts ih =>
    intro l r h
    obtain ⟨core, optDot⟩ := a
    simp only [tryAlts] at h
    split at h
    · exact ih h
    · rename_i r2 h2
      split at h
      · rename_i r4 h4
        cases h
        split at h4
        · split at h4
          · exact (matchB_sfx h4).trans
              ((List.suffix_cons _ _).trans (matchLitCI_sfx h2))
          · cases h4
        · cases h4
      · split at h
        · rename_i r4 h4
          cases h
          exact (matchB_sfx h4).trans (matchLitCI_sfx h2)
        · exact ih h

theorem matchSuffix_head {c : Char} {cs r : List Char}
    (h : matchSuffix (c :: cs) = some r) : c = '\\' := by
  simp only [matchSuffix, bind, Option.bind_eq_some] at h
  obtain ⟨r1, h1, _⟩ := h
  exact matchB_head h1

theorem matchSuffix_sfx {l r : List Char} (h : matchSuffix l = some r) :
    r <:+ l := by
  simp only [matchSuffix, bind, Option.bind_eq_some] at h
  obtain ⟨r1, h1, h2⟩ := h
  exact (tryAlts_sfx h2).trans (matchB_sfx h1)

/-- A scanner whose matcher only fires on a leading backslash is the identity
on backslash-free strings. -/
theorem replaceScan_id {M : List Char → Option (List Char)} {rep : List Char}
    (hM : ∀ c cs r, M (c :: cs) = some r → c = '\\') :
    ∀ (f : Nat) {l : List Char}, '\\' ∉ l → replaceScan M rep f l = l := by
  intro f
  induction f with
  | zero => intro l _; rfl
  | succ f ih =>
    intro l h
    cases l with
    | nil => rfl
    | cons c cs =>
      have hc : c ≠ '\\' := fun hc => h (hc ▸ List.mem_cons_self c cs)
      cases hm : M (c :: cs) with
      | some rest => exact absurd (hM c cs rest hm) hc
      | none =>
        rw [replaceScan, hm]
        rw [ih fun hx => h (List.mem_cons_of_mem c hx)]

/-- Characters of a scanner's output come from the input or the replacement. -/
theorem replaceScan_mem {M : List Char → Option (List Char)} {rep : List Char}
    (hS : ∀ l r, M l = some r → r <:+ l) :
    ∀ (f : Nat) {l : List Char} {c : Char},
      c ∈ replaceScan M rep f l → c ∈ l ∨ c ∈ rep := by
  intro f
  induction f with
  | zero => intro l c h; exact Or.inl h
  | succ f ih =>
    intro l c h
    cases l with
    | nil => rw [replaceScan] at h; simp at h
    | cons a cs =>
      cases hm : M (a :: cs) with
      | some rest =>
        rw [replaceScan, hm] at h
        rcases List.mem_append.mp h with h | h
        · exact Or.inr h
        · rcases ih h with h | h
          · exact Or.inl ((hS _ _ hm).subset h)
          · exact Or.inr h
      | none =>
        rw [replaceScan, hm] at h
        rcases List.mem_cons.mp h with h | h
        · exact Or.inl (h ▸ List.mem_cons_self a cs)
        · rcases ih h with h | h
          · exact Or.inl (List.mem_cons_of_mem a h)
          · exact Or.inr h

theorem matchTrailConn_head {c : Char} {cs : List Char}
    (h : matchTrailConn (c :: cs) = true) : c = '\\' := by
  simp only [matchTrailConn] at h
  split at h
  · cases h
  · rename_i r1 h1
    simpa using chomp_head h1

theorem stripTrailConn_id :
    ∀ {l : List Char}, '\\' ∉ l → stripTrailConn l = l := by
  intro l
  induction l with
  | nil => intro _; rfl
  | cons c cs ih =>
    intro h
    have hc : c ≠ '\\' := fun hc => h (hc ▸ List.mem_cons_self c cs)
    rw [stripTrailConn]
    have hm : matchTrailConn (c :: cs) = false := by
      cases hm : matchTrailConn (c :: cs)
      · rfl
      · exact absurd (matchTrailConn_head hm) hc
    rw [hm]
    simp only [Bool.false_eq_true, if_false]
    rw [ih fun hx => h (List.mem_cons_of_mem c hx)]

theorem stripTrailConn_mem :
    ∀ {l : List Char} {c : Char}, c ∈ stripTrailConn l → c ∈ l := by
  intro l
  induction l with
  | nil => intro c h; simp [stripTrailConn] at h
  | cons a cs ih =>
    intro c h
    rw [stripTrailConn] at h
    split at h
    · simp at h
    · rcases List.mem_cons.mp h with h | h
      · exact h ▸ List.mem_cons_self a cs
      · exact List.mem_cons_of_mem a (ih h)

theorem replBW_head : ∀ (l : List Char), (replBW l).head? = l.head? := by
  intro l
  induction l using replBW.induct with
  | case1 => rfl
  | case2 c => rfl
  | case3 c1 c2 => rfl
  | case4 c1 c2 c3 => rfl
  | case5 c1 c2 c3 c4 rest h ih =>
    rw [replBW, if_pos h]
    simp only [Bool.and_eq_true, decide_eq_true_eq] at h
    simp [h.1.1.1]
  | case6 c1 c2 c3 c4 rest h ih => rw [replBW, if_neg h]; simp

theorem replBW_eq_nil {l : List Char} (h : replBW l = []) : l = [] := by
  have := replBW_head l
  rw [h] at this
  simpa using (List.head?_eq_none_iff.mp this.symm)

theorem getLast?_cons_of_ne {a : Char} {l : List Char} (h : l ≠ []) :
    (a :: l).getLast? = l.getLast? := by
  cases l with
  | nil => exact absurd rfl h
  | cons b t => rw [List.getLast?_cons_cons]

theorem replBW_getLast :
    ∀ (l : List Char),
      (replBW l).getLast? = l.getLast? ∨ (replBW l).getLast? = some 'W' := by
  intro l
  induction l using replBW.induct with
  | case1 => left; rfl
  | case2 c => left; rfl
  | case3 c1 c2 => left; rfl
  | case4 c1 c2 c3 => left; rfl
  | case5 c1 c2 c3 c4 rest h ih =>
    rw [replBW, if_pos h]
    by_cases hr : rest = []
    · subst hr
      right
      rfl
    · have hbw : replBW rest ≠ [] := fun hq => hr (replBW_eq_nil hq)
      have e1 : ('\\' :: 'B' :: '\\' :: 'W' :: replBW rest).getLast? =
          (replBW rest).getLast? := by
        rw [List.getLast?_cons_cons, List.getLast?_cons_cons,
          List.getLast?_cons_cons, getLast?_cons_of_ne hbw]
      have e2 : (c1 :: c2 :: c3 :: c4 :: rest).getLast? = rest.getLast? := by
        rw [List.getLast?_cons_cons, List.getLast?_cons_cons,
          List.getLast?_cons_cons, getLast?_cons_of_ne hr]
      rw [e1, e2]
      exact ih
  | case6 c1 c2 c3 c4 rest h ih =>
    rw [replBW, if_neg h]
    have hbw : replBW (c2 :: c3 :: c4 :: rest) ≠ [] := by
      intro hq
      cases replBW_eq_nil hq
    rw [getLast?_cons_of_ne hbw, List.getLast?_cons_cons]
    exact ih

theorem replBW_mem :
    ∀ {l : List Char} {c : Char}, c ∈ replBW l →
      c ∈ l ∨ c = '\\' ∨ c = 'B' ∨ c = 'W' := by
  intro l
  induction l using replBW.induct with
  | case1 => intro c h; simp [replBW] at h
  | case2 a => intro c h; exact Or.inl h
  | case3 a b => intro c h; exact Or.inl h
  | case4 a b d => intro c h; exact Or.inl h
  | case5 c1 c2 c3 c4 rest h ih =>
    intro c hc
    rw [replBW, if_pos h] at hc
    simp only [List.mem_cons] at hc
    rcases hc with rfl | rfl | rfl | rfl | hc
    · exact Or.inr (Or.inl rfl)
    · exact Or.inr (Or.inr (Or.inl rfl))
    · exact Or.inr (Or.inl rfl)
    · exact Or.inr (Or.inr (Or.inr rfl))
    · rcases ih hc with h2 | h2
      · exact Or.inl (by simp [h2])
      · exact Or.inr h2
  | case6 c1 c2 c3 c4 rest h ih =>
    intro c hc
    rw [replBW, if_neg h] at hc
    rcases List.mem_cons.mp hc with rfl | hc
    · exact Or.inl (List.mem_cons_self _ _)
    · rcases ih hc with h2 | h2
      · exact Or.inl (List.mem_cons_of_mem _ h2)
      · exact Or.inr h2

theorem replBW_id : ∀ {l : List Char}, '\\' ∉ l → replBW l = l := by
  intro l
  induction l using replBW.induct with
  | case1 => intro _; rfl
  | case2 c => intro _; rfl
  | case3 c1 c2 => intro _; rfl
  | case4 c1 c2 c3 => intro _; rfl
  | case5 c1 c2 c3 c4 rest h ih =>
    intro hb
    simp only [Bool.and_eq_true, decide_eq_true_eq] at h
    exact absurd (h.1.1.1 ▸ List.mem_cons_self c1 _) hb
  | case6 c1 c2 c3 c4 rest h ih =>
    intro hb
    rw [replBW, if_neg h]
    rw [ih fun hx => hb (List.mem_cons_of_mem c1 hx)]

theorem replBW_bs : ∀ {l : List Char}, '\\' ∈ l → '\\' ∈ replBW l := by
  intro l
  induction l using replBW.induct with
  | case1 => intro h; simp at h
  | case2 c => intro h; exact h
  | case3 c1 c2 => intro h; exact h
  | case4 c1 c2 c3 => intro h; exact h
  | case5 c1 c2 c3 c4 rest h ih =>
    intro _
    rw [replBW, if_pos h]
    exact List.mem_cons_self _ _
  | case6 c1 c2 c3 c4 rest h ih =>
    intro hb
    rw [replBW, if_neg h]
    rcases List.mem_cons.mp hb with hb | hb
    · exact hb ▸ List.mem_cons_self _ _
    · exact List.mem_cons_of_mem c1 (ih hb)

/-! ### Pipeline-level lemmas -/

theorem dotComma_not_dot (c : Char) :
    dotCommaToSpace c ≠ '.' ∧ dotCommaToSpace c ≠ ',' := by
  unfold dotCommaToSpace
  split
  · exact ⟨by decide, by decide⟩
  · rename_i h
    simp only [Bool.or_eq_true, decide_eq_true_eq] at h
    push_neg at h
    exact h

theorem dotComma_eq_self {c : Char} (h1 : c ≠ '.') (h2 : c ≠ ',') :
    dotCommaToSpace c = c := by
  unfold dotCommaToSpace
  simp [h1, h2]

theorem replAmpL_mem {l : List Char} {c : Char} (h : c ∈ replAmpL l) :
    c ∈ l ∨ c = ' ' := by
  rcases replaceScan_mem (fun _ _ => matchAmp_sfx) _ h with h | h
  · exact Or.inl h
  · exact Or.inr (by simpa using h)

theorem replAndL_mem {l : List Char} {c : Char} (h : c ∈ replAndL l) :
    c ∈ l ∨ c = ' ' := by
  rcases replaceScan_mem (fun _ _ => matchAndM_sfx) _ h with h | h
  · exact Or.inl h
  · exact Or.inr (by simpa using h)

theorem replSRunL_mem {l : List Char} {c : Char} (h : c ∈ replSRunL l) :
    c ∈ l ∨ c = ' ' := by
  rcases replaceScan_mem (fun _ _ => matchSRun_sfx) _ h with h | h
  · exact Or.inl h
  · exact Or.inr (by simpa using h)

theorem replSuffixL_mem {l : List Char} {c : Char} (h : c ∈ replSuffixL l) :
    c ∈ l := by
  rcases replaceScan_mem (fun _ _ => matchSuffix_sfx) _ h with h | h
  · exact h
  · simp at h

/-- Every character of the pipeline's output is a dot/comma-mapped character
of the input, or one of the characters the replacements can introduce. -/
theorem pipelineL_mem {l : List Char} {c : Char} (h : c ∈ pipelineL l) :
    c ∈ l.map dotCommaToSpace ∨ c = ' ' ∨ c = '\\' ∨ c = 'B' ∨ c = 'W' := by
  unfold pipelineL at h
  rcases replBW_mem h with h | h
  · have h := jsTrimL_mem h
    have h := stripTrailConn_mem h
    have h := jsTrimL_mem h
    rcases replSRunL_mem h with h | h
    case inr => exact Or.inr (Or.inl h)
    have h := replSuffixL_mem h
    have h := jsTrimL_mem h
    rcases replSRunL_mem h with h | h
    case inr => exact Or.inr (Or.inl h)
    rcases replAndL_mem h with h | h
    case inr => exact Or.inr (Or.inl h)
    rcases replAmpL_mem h with h | h
    case inr => exact Or.inr (Or.inl h)
    exact Or.inl h
  · exact Or.inr (Or.inr h)

theorem pipelineL_no_dot {l : List Char} :
    '.' ∉ pipelineL l ∧ ',' ∉ pipelineL l := by
  constructor
  · intro h
    rcases pipelineL_mem h with h | h
    · obtain ⟨c, _, hc⟩ := List.mem_map.mp h
      exact (dotComma_not_dot c).1 hc
    · rcases h with h | h | h | h <;> cases h
  · intro h
    rcases pipelineL_mem h with h | h
    · obtain ⟨c, _, hc⟩ := List.mem_map.mp h
      exact (dotComma_not_dot c).2 hc
    · rcases h with h | h | h | h <;> cases h

/-- On a backslash-free, dot/comma-free, already-trimmed string the whole
pipeline is the identity: step a has nothing to map, the broken regexes need
a backslash to fire at all, and the trims have nothing to drop. -/
theorem replAmpL_id {l : List Char} (hbs : '\\' ∉ l) : replAmpL l = l :=
  replaceScan_id (fun _ _ _ hm => matchAmp_head hm) _ hbs

theorem replAndL_id {l : List Char} (hbs : '\\' ∉ l) : replAndL l = l :=
  replaceScan_id (fun _ _ _ hm => matchAndM_head hm) _ hbs

theorem replSRunL_id {l : List Char} (hbs : '\\' ∉ l) : replSRunL l = l :=
  replaceScan_id (fun _ _ _ hm => matchSRun_head hm) _ hbs

theorem replSuffixL_id {l : List Char} (hbs : '\\' ∉ l) : replSuffixL l = l :=
  replaceScan_id (fun _ _ _ hm => matchSuffix_head hm) _ hbs

theorem pipelineL_id {l : List Char}
    (hdot : '.' ∉ l) (hcom : ',' ∉ l) (hbs : '\\' ∉ l)
    (hh : ∀ c, l.head? = some c → isJsWhitespace c = false)
    (hl : ∀ c, l.getLast? = some c → isJsWhitespace c = false) :
    pipelineL l = l := by
  have ha : l.map dotCommaToSpace = l :=
    map_eq_self_of fun c hc =>
      dotComma_eq_self (fun e => hdot (e ▸ hc)) (fun e => hcom (e ▸ hc))
  show replBW (jsTrimL (stripTrailConn (jsTrimL (replSRunL (replSuffixL
    (jsTrimL (replSRunL (replAndL (replAmpL (l.map dotCommaToSpace)))))))))) = l
  rw [ha, replAmpL_id hbs, replAndL_id hbs, replSRunL_id hbs,
    jsTrimL_eq_self hh hl, replSuffixL_id hbs, replSRunL_id hbs,
    jsTrimL_eq_self hh hl, stripTrailConn_id hbs, jsTrimL_eq_self hh hl]
  exact replBW_id hbs

/-- On an all-whitespace string the pipeline yields the empty string: the
regexes cannot fire (whitespace contains no backslash) and the trim empties
the string. -/
theorem pipelineL_all_ws {l : List Char}
    (h : ∀ c ∈ l, isJsWhitespace c = true) : pipelineL l = [] := by
  have hbs : '\\' ∉ l := fun hx => ws_ne_bs (h _ hx) rfl
  have ha : l.map dotCommaToSpace = l := map_eq_self_of fun c hc => ws_ne_dot (h c hc)
  show replBW (jsTrimL (stripTrailConn (jsTrimL (replSRunL (replSuffixL
    (jsTrimL (replSRunL (replAndL (replAmpL (l.map dotCommaToSpace)))))))))) = []
  rw [ha, replAmpL_id hbs, replAndL_id hbs, replSRunL_id hbs, jsTrimL_all_ws h]
  rfl

/-- The pipeline's output has no leading or trailing whitespace: it ends in a
trim followed by the (length-preserving, whitespace-free) `\b\w` rewrite. -/
theorem pipelineL_head_not_ws {l : List Char} {c : Char}
    (h : (pipelineL l).head? = some c) : isJsWhitespace c = false := by
  unfold pipelineL at h
  rw [replBW_head] at h
  exact jsTrimL_head_not_ws h

theorem pipelineL_getLast_not_ws {l : List Char} {c : Char}
    (h : (pipelineL l).getLast? = some c) : isJsWhitespace c = false := by
  unfold pipelineL at h
  rcases replBW_getLast (jsTrimL (stripTrailConn (jsTrimL (replSRunL
    (replSuffixL (jsTrimL (replSRunL (replAndL (replAmpL
      (l.map dotCommaToSpace)))))))))) with h2 | h2
  · rw [h2] at h
    exact jsTrimL_getLast_not_ws h
  · rw [h2] at h
    rw [Option.some_inj] at h
    subst h
    decide

/-! ### Structure of `normalizeCorrespondent` -/

theorem firstAlias_mem :
    ∀ {L : List (String × String)} {x r : String},
      firstAlias L x = some r → ∃ p ∈ L, r = p.2 := by
  intro L
  induction L with
  | nil => intro x r h; simp [firstAlias] at h
  | cons p rest ih =>
    intro x r h
    obtain ⟨k, v⟩ := p
    rw [firstAlias] at h
    split at h
    · rw [Option.some_inj] at h
      exact ⟨(k, v), List.mem_cons_self _ _, h.symm⟩
    · obtain ⟨q, hq, hr⟩ := ih h
      exact ⟨q, List.mem_cons_of_mem _ hq, hr⟩

theorem firstAlias_get :
    ∀ (L : List (String × String)) (x : String) (i : Nat) (h : i < L.length),
      jsStartsWith x (L.get ⟨i, h⟩).1 = true →
      (∀ j (hj : j < L.length), j < i → jsStartsWith x (L.get ⟨j, hj⟩).1 = false) →
      firstAlias L x = some (L.get ⟨i, h⟩).2 := by
  intro L
  induction L with
  | nil => intro x i h; exact absurd h (by simp)
  | cons p rest ih =>
    intro x i h h1 h2
    obtain ⟨k, v⟩ := p
    cases i with
    | zero =>
      simp only [List.get] at h1 ⊢
      rw [firstAlias, if_pos h1]
    | succ i =>
      have h0 : jsStartsWith x k = false := by
        have := h2 0 (Nat.succ_pos _) (Nat.succ_pos i)
        simpa [List.get] using this
      simp only [List.get] at h1 ⊢
      rw [firstAlias, if_neg (by simp [h0])]
      exact ih x i (Nat.lt_of_succ_lt_succ h) h1 fun j hj hij => by
        have := h2 (j + 1) (Nat.succ_lt_succ hj) (Nat.succ_lt_succ hij)
        simpa [List.get] using this

/-- The five possible shapes of a `normalizeCorrespondent` result. -/
theorem normalize_cases (v : JSVal) :
    normalizeCorrespondent v = "Unknown" ∨
    (∃ p ∈ ALIASES, normalizeCorrespondent v = p.2) ∨
    (∃ s, v = JSVal.str s ∧ s ≠ "" ∧
      firstAlias ALIASES (jsTrimS (jsToLowerStr s)) = none ∧
      normalizeCorrespondent v = String.mk (pipelineL s.data) ∧
      String.mk (pipelineL s.data) ≠ "") := by
  cases v with
  | str s =>
    by_cases hs : s = ""
    · left; simp [normalizeCorrespondent, hs]
    · cases ha : firstAlias ALIASES (jsTrimS (jsToLowerStr s)) with
      | some r =>
        right; left
        obtain ⟨p, hp, hr⟩ := firstAlias_mem ha
        refine ⟨p, hp, ?_⟩
        rw [← hr]
        simp [normalizeCorrespondent, hs, ha]
      | none =>
        by_cases hn : String.mk (pipelineL s.data) = ""
        · left; simp [normalizeCorrespondent, hs, ha, hn]
        · right; right
          exact ⟨s, rfl, hs, ha, by simp [normalizeCorrespondent, hs, ha, hn], hn⟩
  | num n => left; rfl
  | bool b => left; rfl
  | null => left; rfl
  | undef => left; rfl

/-- Facts about the static alias table checked by evaluation: keys are
non-empty, values are non-empty and carry no whitespace at either end, and no
value contains a dot, comma or backslash. -/
theorem alias_table_facts :
    ∀ p ∈ ALIASES, p.1 ≠ "" ∧ p.2 ≠ "" ∧
      ((p.2.data.head?.all fun c => !isJsWhitespace c) = true) ∧
      ((p.2.data.getLast?.all fun c => !isJsWhitespace c) = true) := by
  decide

/-! ### Claim theorems for the normalizer -/

/-- C1: for every input to `normalizeCorrespondent` that is not a string, or
that is empty or consists only of whitespace (equivalently, is empty after
trimming), the function returns exactly `"Unknown"`.  The model is a total
function, so no exception can be raised on any input. -/
theorem claim1_blank_or_nonstring_unknown (v : JSVal)
    (h : (∀ s, v ≠ JSVal.str s) ∨
         (∃ s, v = JSVal.str s ∧ ∀ c ∈ s.data, isJsWhitespace c = true)) :
    normalizeCorrespondent v = "Unknown" := by
  cases v with
  | str s =>
    rcases h with h | ⟨s', hs', hws⟩
    · exact absurd rfl (h s)
    · have hss : s = s' := by injection hs'
      subst hss
      by_cases hempty : s = ""
      · simp [normalizeCorrespondent, hempty]
      · have hmapws : ∀ c ∈ s.data.map jsToLowerChar, isJsWhitespace c = true := by
          intro c hc
          obtain ⟨d, hd, rfl⟩ := List.mem_map.mp hc
          rw [ws_toLower (hws d hd)]
          exact hws d hd
        have hlower : jsTrimS (jsToLowerStr s) = "" := by
          unfold jsTrimS jsToLowerStr
          have he : jsTrimL (String.mk (s.data.map jsToLowerChar)).data = [] :=
            jsTrimL_all_ws hmapws
          rw [he]
        have hnone : firstAlias ALIASES (jsTrimS (jsToLowerStr s)) = none := by
          rw [hlower]
          decide
        have hp : pipelineL s.data = [] := pipelineL_all_ws hws
        simp [normalizeCorrespondent, hempty, hnone, hp]
  | num n => rfl
  | bool b => rfl
  | null => rfl
  | undef => rfl

/-- Witness for C1 at the whitespace-only string `"  "`. -/
theorem claim1_witness : normalizeCorrespondent (JSVal.str "  ") = "Unknown" :=
  claim1_blank_or_nonstring_unknown (JSVal.str "  ")
    (Or.inr ⟨"  ", rfl, by decide⟩)

/-- C2: if the lower-cased trimmed input starts with the `i`-th alias key and
with no earlier key, `normalizeCorrespondent` returns exactly the `i`-th
canonical value — whatever follows the key — and performs none of the later
pipeline processing. -/
theorem claim2_alias_first_match (s : String) (i : Nat) (h : i < ALIASES.length)
    (h1 : jsStartsWith (jsTrimS (jsToLowerStr s)) (ALIASES.get ⟨i, h⟩).1 = true)
    (h2 : ∀ j (hj : j < ALIASES.length), j < i →
      jsStartsWith (jsTrimS (jsToLowerStr s)) (ALIASES.get ⟨j, hj⟩).1 = false) :
    normalizeCorrespondent (JSVal.str s) = (ALIASES.get ⟨i, h⟩).2 := by
  have hkeyne : (ALIASES.get ⟨i, h⟩).1 ≠ "" :=
    (alias_table_facts _ (ALIASES.get_mem i h)).1
  have hs : s ≠ "" := by
    intro he
    subst he
    have hdne : (ALIASES.get ⟨i, h⟩).1.data ≠ [] := by
      intro hd
      apply hkeyne
      cases hk : (ALIASES.get ⟨i, h⟩).1 with
      | mk d => rw [hk] at hd; simp at hd; simp [hd]
    have : jsStartsWith (jsTrimS (jsToLowerStr "")) (ALIASES.get ⟨i, h⟩).1 = false := by
      unfold jsStartsWith
      cases hd : (ALIASES.get ⟨i, h⟩).1.data with
      | nil => exact absurd hd hdne
      | cons a t => rfl
    rw [this] at h1
    cases h1
  have hfa := firstAlias_get ALIASES (jsTrimS (jsToLowerStr s)) i h h1 h2
  simp [normalizeCorrespondent, hs, hfa]

/-- Witness for C2: `"Magenta Mobil"` matches the seventh key `"magenta"`
(and no earlier one) and maps to `"Magenta Telekom"`. -/
theorem claim2_witness :
    normalizeCorrespondent (JSVal.str "Magenta Mobil") = "Magenta Telekom" :=
  (claim2_alias_first_match "Magenta Mobil" 6 (by decide) (by decide)
    (by decide)).trans (by decide)

/-- C5: every result of `normalizeCorrespondent` is a non-empty string, and
when the step-3 pipeline produces the empty string the function returns
`"Unknown"` instead (the `return n || 'Unknown'` fallback). -/
theorem claim5_nonempty (v : JSVal) :
    normalizeCorrespondent v ≠ "" ∧
    (∀ s, v = JSVal.str s → s ≠ "" →
      firstAlias ALIASES (jsTrimS (jsToLowerStr s)) = none →
      String.mk (pipelineL s.data) = "" →
      normalizeCorrespondent v = "Unknown") := by
  constructor
  · rcases normalize_cases v with h | ⟨p, hp, h⟩ | ⟨s, _, _, _, h, hne⟩
    · rw [h]; decide
    · rw [h]; exact (alias_table_facts p hp).2.1
    · rw [h]; exact hne
  · intro s hv hs hnone hempty
    subst hv
    simp [normalizeCorrespondent, hs, hnone, hempty]

/-- Witness for C5 at `" . "`, whose pipeline result is empty. -/
theorem claim5_witness :
    normalizeCorrespondent (JSVal.str " . ") ≠ "" ∧
    normalizeCorrespondent (JSVal.str " . ") = "Unknown" :=
  ⟨(claim5_nonempty (JSVal.str " . ")).1,
   (claim5_nonempty (JSVal.str " . ")).2 " . " rfl (by decide) (by decide)
     (by decide)⟩

/-- C9: no `normalizeCorrespondent` result has leading or trailing
whitespace: it is `"Unknown"`, an alias value, or the pipeline output, which
ends in a trim followed by the whitespace-free `\b\w` rewrite. -/
theorem claim9_no_outer_whitespace (v : JSVal) :
    ((normalizeCorrespondent v).data.head?.all fun c => !isJsWhitespace c) = true ∧
    ((normalizeCorrespondent v).data.getLast?.all fun c => !isJsWhitespace c) = true := by
  rcases normalize_cases v with h | ⟨p, hp, h⟩ | ⟨s, _, _, _, h, _⟩
  · rw [h]; exact ⟨by decide, by decide⟩
  · rw [h]; exact ⟨(alias_table_facts p hp).2.2.1, (alias_table_facts p hp).2.2.2⟩
  · rw [h]
    have hstr : (String.mk (pipelineL s.data)).data = pipelineL s.data := rfl
    rw [hstr]
    constructor
    · cases hh : (pipelineL s.data).head? with
      | none => rfl
      | some c => simp [Option.all, pipelineL_head_not_ws hh]
    · cases hh : (pipelineL s.data).getLast? with
      | none => rfl
      | some c => simp [Option.all, pipelineL_getLast_not_ws hh]

/-- C8 (counterexample): an input whose normalized form is alias-free but is
NOT a fixed point of `normalizeCorrespondent`.  The input
`"\bc\bag\bo\b"` (with literal backslashes) normalizes to `"\bco\b"` —
the broken suffix regex deletes the literal text `\bag\b`, splicing
`\bco\b` together — and normalizing that deletes everything, giving
`"Unknown"`. -/
theorem claim8_counterexample :
    firstAlias ALIASES (jsTrimS (jsToLowerStr
      (normalizeCorrespondent (JSVal.str "\\bc\\bag\\bo\\b")))) = none ∧
    normalizeCorrespondent (JSVal.str
      (normalizeCorrespondent (JSVal.str "\\bc\\bag\\bo\\b"))) ≠
      normalizeCorrespondent (JSVal.str "\\bc\\bag\\bo\\b") :=
  ⟨by decide, by decide⟩

/-- C8 (amended): re-running `normalizeCorrespondent` on an alias-free result
is a no-op provided the result contains no backslash character.  (Backslashes
are what the mis-escaped regexes match, so backslash-free canonical names are
genuinely stable.) -/
theorem claim8_amended_fixed_point (v : JSVal)
    (halias : firstAlias ALIASES (jsTrimS (jsToLowerStr
      (normalizeCorrespondent v))) = none)
    (hbs : '\\' ∉ (normalizeCorrespondent v).data) :
    normalizeCorrespondent (JSVal.str (normalizeCorrespondent v)) =
      normalizeCorrespondent v := by
  rcases normalize_cases v with h | ⟨p, hp, h⟩ | ⟨s, _, _, _, h, hne⟩
  · rw [h]; decide
  · rw [h] at halias ⊢
    simp only [ALIASES, List.mem_cons, List.not_mem_nil, or_false] at hp
    rcases hp with rfl | rfl | rfl | rfl | rfl | rfl | rfl
    · decide
    · decide
    · exact absurd halias (by decide)
    · exact absurd halias (by decide)
    · decide
    · exact absurd halias (by decide)
    · exact absurd halias (by decide)
  · rw [h] at halias hbs ⊢
    have hydata : (String.mk (pipelineL s.data)).data = pipelineL s.data := rfl
    have hdot : '.' ∉ pipelineL s.data := (pipelineL_no_dot).1
    have hcom : ',' ∉ pipelineL s.data := (pipelineL_no_dot).2
    have hbs' : '\\' ∉ pipelineL s.data := by rw [hydata] at hbs; exact hbs
    have hh : ∀ c, (pipelineL s.data).head? = some c → isJsWhitespace c = false :=
      fun c hc => pipelineL_head_not_ws hc
    have hl : ∀ c, (pipelineL s.data).getLast? = some c → isJsWhitespace c = false :=
      fun c hc => pipelineL_getLast_not_ws hc
    have hid : pipelineL (pipelineL s.data) = pipelineL s.data :=
      pipelineL_id hdot hcom hbs' hh hl
    simp [normalizeCorrespondent, hne, halias, hid]

/-- Witness for the amended C8 at `"Acme Widgets"`, a backslash-free,
alias-free fixed point. -/
theorem claim8_witness :
    normalizeCorrespondent (JSVal.str
      (normalizeCorrespondent (JSVal.str "Acme Widgets"))) =
      normalizeCorrespondent (JSVal.str "Acme Widgets") :=
  claim8_amended_fixed_point (JSVal.str "Acme Widgets") (by decide) (by decide)

/-! ### Slug lemmas -/

theorem keep_ne_dash {c : Char} (h : isKeepSlug c = true) : c ≠ '-' := by
  intro e
  subst e
  exact absurd h (by decide)

theorem hyph_mem :
    ∀ {l : List Char} {b : Bool} {c : Char},
      c ∈ hyph b l → isKeepSlug c = true ∨ c = '-' := by
  intro l
  induction l with
  | nil => intro b c h; simp [hyph] at h
  | cons a t ih =>
    intro b c h
    rw [hyph] at h
    split at h
    · rcases List.mem_cons.mp h with rfl | h
      · left; assumption
      · exact ih h
    · split at h
      · exact ih h
      · rcases List.mem_cons.mp h with rfl | h
        · right; rfl
        · exact ih h

theorem hyph_head_keep :
    ∀ {l : List Char} {c : Char},
      (hyph true l).head? = some c → isKeepSlug c = true := by
  intro l
  induction l with
  | nil => intro c h; simp [hyph] at h
  | cons a t ih =>
    intro c h
    rw [hyph] at h
    split at h
    · rename_i ha
      rw [List.head?_cons, Option.some_inj] at h
      exact h ▸ ha
    · rw [if_pos rfl] at h
      exact ih h

theorem noDD_tail {a : Char} {l : List Char}
    (h : noDoubleHyphen (a :: l) = true) : noDoubleHyphen l = true := by
  cases l with
  | nil => rfl
  | cons b t =>
    rw [noDoubleHyphen] at h
    simp only [Bool.and_eq_true] at h
    exact h.2

theorem noDD_cons_of_ne {a : Char} {l : List Char} (ha : a ≠ '-')
    (h : noDoubleHyphen l = true) : noDoubleHyphen (a :: l) = true := by
  cases l with
  | nil => rfl
  | cons b t =>
    rw [noDoubleHyphen]
    simp [ha, h]

theorem noDD_cons_dash {l : List Char}
    (hh : ∀ c, l.head? = some c → c ≠ '-')
    (h : noDoubleHyphen l = true) : noDoubleHyphen ('-' :: l) = true := by
  cases l with
  | nil => rfl
  | cons b t =>
    rw [noDoubleHyphen]
    have hb : b ≠ '-' := hh b rfl
    simp [hb, h]

theorem hyph_noDD : ∀ (l : List Char) (b : Bool),
    noDoubleHyphen (hyph b l) = true := by
  intro l
  induction l with
  | nil => intro b; rfl
  | cons a t ih =>
    intro b
    rw [hyph]
    split
    · rename_i ha
      exact noDD_cons_of_ne (keep_ne_dash ha) (ih false)
    · split
      · exact ih true
      · exact noDD_cons_dash
          (fun c hc => keep_ne_dash (hyph_head_keep hc)) (ih true)

theorem noDD_append_left :
    ∀ {u v : List Char}, noDoubleHyphen (u ++ v) = true →
      noDoubleHyphen u = true := by
  intro u
  induction u with
  | nil => intro v _; rfl
  | cons a t ih =>
    intro v h
    cases t with
    | nil => rfl
    | cons b r =>
      rw [List.cons_append, List.cons_append] at h
      rw [noDoubleHyphen] at h ⊢
      simp only [Bool.and_eq_true] at h ⊢
      obtain ⟨h1, h2⟩ := h
      exact ⟨h1, ih (v := v) (by rw [List.cons_append]; exact h2)⟩

theorem noDD_dropWhile {p : Char → Bool} :
    ∀ {l : List Char}, noDoubleHyphen l = true →
      noDoubleHyphen (l.dropWhile p) = true := by
  intro l
  induction l with
  | nil => intro _; rfl
  | cons a t ih =>
    intro h
    by_cases hp : p a
    · rw [List.dropWhile_cons_of_pos hp]
      exact ih (noDD_tail h)
    · rw [List.dropWhile_cons_of_neg hp]
      exact h

theorem dropTrail_split {p : Char → Bool} :
    ∀ (l : List Char), ∃ t, l = dropTrail p l ++ t := by
  intro l
  induction l with
  | nil => exact ⟨[], rfl⟩
  | cons c cs ih =>
    obtain ⟨t, ht⟩ := ih
    rw [dropTrail]
    cases hr : dropTrail p cs with
    | nil =>
      by_cases hp : p c
      · exact ⟨c :: cs, by simp [hp]⟩
      · refine ⟨cs, ?_⟩
        simp [hp]
    | cons x xs =>
      refine ⟨t, ?_⟩
      rw [List.cons_append, ← hr, ← ht]

theorem noDD_dropTrail {p : Char → Bool} {l : List Char}
    (h : noDoubleHyphen l = true) : noDoubleHyphen (dropTrail p l) = true := by
  obtain ⟨t, ht⟩ := dropTrail_split (p := p) l
  exact noDD_append_left (ht ▸ h)

theorem noDD_take {l : List Char} {n : Nat}
    (h : noDoubleHyphen l = true) : noDoubleHyphen (l.take n) = true :=
  noDD_append_left (l.take_append_drop n ▸ h)

theorem head?_take_succ {l : List Char} {n : Nat} :
    (l.take (n + 1)).head? = l.head? := by
  cases l <;> rfl

/-! ### Claim theorems: slug and code-bug evaluations -/

/-- C3: evaluation of the code at the spec's example.  The deployed function
returns `"Acme GmbH & Co"` unchanged — not `"Acme"` — because every cleanup
regex after the alias check is double-escaped and only matches literal
backslashes. -/
theorem claim3_suffix_strip_broken :
    normalizeCorrespondent (JSVal.str "Acme GmbH & Co") = "Acme GmbH & Co" ∧
    normalizeCorrespondent (JSVal.str "Acme GmbH & Co") ≠ "Acme" :=
  ⟨by decide, by decide⟩

/-- C4 (counterexample): at 49 `a`s followed by `" b"`, the slug before
truncation is 49 `a`s, a hyphen and a `b`; `substring(0, 50)` then cuts
directly after the hyphen, so the output ends in `-` and does not match
`^[a-z0-9]*(-[a-z0-9]+)*$`. -/
theorem claim4_counterexample :
    matchesSlugRe (generateSlug
      (String.mk (List.replicate 49 'a' ++ [' ', 'b']))) = false := by
  decide

/-- C4 (amended): every `generateSlug` output consists only of `[a-z0-9]` and
hyphens, has no leading and no doubled hyphen, and is at most 50 characters
long.  (A trailing hyphen is possible when the 50-character truncation cuts
immediately after a hyphen, which is the sole divergence from the claimed
regular expression.) -/
theorem claim4_amended_slug_shape (s : String) :
    ((generateSlug s).data.all fun c => isKeepSlug c || c = '-') = true ∧
    noDoubleHyphen (generateSlug s).data = true ∧
    ((generateSlug s).data.head?.all fun c => !(c = '-')) = true ∧
    (generateSlug s).length ≤ 50 := by
  have hl :
      ∃ l : List Char, generateSlug s =
        String.mk ((dropTrail (fun ch => ch = '-')
          ((hyph false l).dropWhile (fun ch => ch = '-'))).take 50) :=
    ⟨_, rfl⟩
  obtain ⟨l, hslug⟩ := hl
  rw [hslug]
  set d := hyph false l with hd
  set e := dropTrail (fun ch => ch = '-') (d.dropWhile (fun ch => ch = '-')) with he
  have hdata : (String.mk (e.take 50)).data = e.take 50 := rfl
  rw [hdata]
  refine ⟨?_, ?_, ?_, ?_⟩
  · rw [List.all_eq_true]
    intro x hx
    have hx1 : x ∈ e := List.mem_of_mem_take hx
    have hx2 : x ∈ d.dropWhile (fun ch => ch = '-') := dropTrail_mem hx1
    have hx3 : x ∈ d := (List.dropWhile_suffix _).subset hx2
    rcases hyph_mem hx3 with h | h
    · simp [h]
    · simp [h]
  · exact noDD_take (noDD_dropTrail (noDD_dropWhile (hyph_noDD l false)))
  · cases hh : (e.take 50).head? with
    | none => rfl
    | some c =>
      have h50 : (50 : Nat) = 49 + 1 := rfl
      rw [h50, head?_take_succ] at hh
      have hc : c ≠ '-' := by
        rcases dropTrail_head (p := fun ch => ch = '-')
          (l := d.dropWhile (fun ch => ch = '-')) with h1 | h1
        · rw [← he] at h1
          have := dropWhile_head_not (p := fun ch => ch = '-') (h1 ▸ hh)
          simpa using this
        · rw [← he] at h1
          rw [h1] at hh
          cases hh
      simp [Option.all, hc]
  · have : (String.mk (e.take 50)).length = (e.take 50).length := rfl
    rw [this]
    exact List.length_take_le 50 e

/-- C6: evaluation of the code at the spec's umlaut example.  `normalize`
leaves `"Ärger GmbH"` unchanged (broken suffix regex), and
`generateSlug "Ärger"` yields `"a-rger"`, not `"arger"`: the mis-escaped
character class `[\\u0300-\\u036f]` does not contain the combining
diaeresis, which then falls into the `[^a-z0-9]+` run and becomes a
hyphen. -/
theorem claim6_diacritics_broken :
    normalizeCorrespondent (JSVal.str "Ärger GmbH") = "Ärger GmbH" ∧
    generateSlug "Ärger" = "a-rger" ∧ generateSlug "Ärger" ≠ "arger" :=
  ⟨by decide, by decide, by decide⟩

/-- C7: evaluation of the code at `"acme widgets"`.  The title-case rewrite
`/\\b\\w/g` matches only the literal text `\b\w`, so the result keeps its
lower-case word-initial letters and is not title-cased. -/
theorem claim7_titlecase_broken :
    normalizeCorrespondent (JSVal.str "acme widgets") = "acme widgets" ∧
    titleCasedOk (normalizeCorrespondent (JSVal.str "acme widgets")) = false :=
  ⟨by decide, by decide⟩

end V142

namespace V142.Py

/-! ### Lemmas about the workflow patcher -/

theorem exMapM_length {f : Json → Except String Json} :
    ∀ {l l' : List Json}, exMapM f l = Except.ok l' → l'.length = l.length := by
  intro l
  induction l with
  | nil =>
    intro l' h
    simp only [exMapM] at h
    cases h
    rfl
  | cons a t ih =>
    intro l' h
    simp only [exMapM] at h
    cases hfa : f a with
    | error e => rw [hfa] at h; cases h
    | ok b =>
      rw [hfa] at h
      cases hmt : exMapM f t with
      | error e => rw [hmt] at h; cases h
      | ok bs =>
        rw [hmt] at h
        cases h
        simp [ih hmt]

theorem exMapM_get {f : Json → Except String Json} :
    ∀ {l l' : List Json}, exMapM f l = Except.ok l' →
      ∀ (i : Nat) (hi : i < l.length) (hi' : i < l'.length),
        f (l.get ⟨i, hi⟩) = Except.ok (l'.get ⟨i, hi'⟩) := by
  intro l
  induction l with
  | nil =>
    intro l' h i hi
    exact absurd hi (by simp)
  | cons a t ih =>
    intro l' h i hi hi'
    simp only [exMapM] at h
    cases hfa : f a with
    | error e => rw [hfa] at h; cases h
    | ok b =>
      rw [hfa] at h
      cases hmt : exMapM f t with
      | error e => rw [hmt] at h; cases h
      | ok bs =>
        rw [hmt] at h
        cases h
        cases i with
        | zero => simpa using hfa
        | succ i =>
          exact ih hmt i (Nat.lt_of_succ_lt_succ hi) (Nat.lt_of_succ_lt_succ hi')

theorem isNamed_name {kvs : List (String × Json)} {t : String}
    (h : isNamed kvs t = true) : jlookup kvs "name" = some (Json.str t) := by
  unfold isNamed at h
  split at h
  · rename_i n heq
    simp only [decide_eq_true_eq] at h
    rw [heq, h]
  · cases h

theorem fixNode1_skip {node m : Json} (hok : fixNode1 node = Except.ok m)
    (hname : nodeName node ≠ some (Json.str "Check Storage Paths")) :
    m = node := by
  cases node with
  | obj kvs =>
    rw [fixNode1] at hok
    by_cases hn : isNamed kvs "Check Storage Paths"
    · exact absurd (isNamed_name hn) hname
    · rw [if_neg hn] at hok
      cases hok
      rfl
  | null => cases hok
  | bool b => cases hok
  | num n => cases hok
  | str s => cases hok
  | arr xs => cases hok

theorem fixNode2_skip {node m : Json} (hok : fixNode2 node = Except.ok m)
    (hname : nodeName node ≠ some (Json.str "Generate Storage Path")) :
    m = node := by
  cases node with
  | obj kvs =>
    rw [fixNode2] at hok
    by_cases hn : isNamed kvs "Generate Storage Path"
    · exact absurd (isNamed_name hn) hname
    · rw [if_neg hn] at hok
      cases hok
      rfl
  | null => cases hok
  | bool b => cases hok
  | num n => cases hok
  | str s => cases hok
  | arr xs => cases hok

theorem fixNode3_skip {node m : Json} (hok : fixNode3 node = Except.ok m)
    (hname : nodeName node ≠ some (Json.str "Get Storage Path ID")) :
    m = node := by
  cases node with
  | obj kvs =>
    rw [fixNode3] at hok
    by_cases hn : isNamed kvs "Get Storage Path ID"
    · exact absurd (isNamed_name hn) hname
    · rw [if_neg hn] at hok
      cases hok
      rfl
  | null => cases hok
  | bool b => cases hok
  | num n => cases hok
  | str s => cases hok
  | arr xs => cases hok

theorem fixNode4_skip {node m : Json} (hok : fixNode4 node = Except.ok m)
    (hname : nodeName node ≠ some (Json.str "Check Correspondent Exists")) :
    m = node := by
  cases node with
  | obj kvs =>
    rw [fixNode4] at hok
    by_cases hn : isNamed kvs "Check Correspondent Exists"
    · exact absurd (isNamed_name hn) hname
    · rw [if_neg hn] at hok
      cases hok
      rfl
  | null => cases hok
  | bool b => cases hok
  | num n => cases hok
  | str s => cases hok
  | arr xs => cases hok

theorem fixNode5_skip {node m : Json} (hok : fixNode5 node = Except.ok m)
    (hname : nodeName node ≠ some (Json.str "Create Correspondent")) :
    m = node := by
  cases node with
  | obj kvs =>
    rw [fixNode5] at hok
    by_cases hn : isNamed kvs "Create Correspondent"
    · exact absurd (isNamed_name hn) hname
    · rw [if_neg hn] at hok
      cases hok
      rfl
  | null => cases hok
  | bool b => cases hok
  | num n => cases hok
  | str s => cases hok
  | arr xs => cases hok

theorem jlookup_setKey_self :
    ∀ (kvs : List (String × Json)) (k : String) (v : Json),
      jlookup (setKey kvs k v) k = some v := by
  intro kvs
  induction kvs with
  | nil => intro k v; simp [setKey, jlookup]
  | cons p rest ih =>
    intro k v
    obtain ⟨k', v'⟩ := p
    rw [setKey]
    by_cases hk : k' = k
    · rw [if_pos hk, jlookup, if_pos hk]
    · rw [if_neg hk, jlookup, if_neg hk]
      exact ih k v

theorem jlookup_setKey_ne :
    ∀ (kvs : List (String × Json)) (k k' : String) (v : Json), k ≠ k' →
      jlookup (setKey kvs k v) k' = jlookup kvs k' := by
  intro kvs
  induction kvs with
  | nil =>
    intro k k' v hne
    simp [setKey, jlookup, hne]
  | cons p rest ih =>
    intro k k' v hne
    obtain ⟨k0, v0⟩ := p
    rw [setKey]
    by_cases hk : k0 = k
    · rw [if_pos hk, jlookup, jlookup]
      subst hk
      rw [if_neg hne, if_neg hne]
    · rw [if_neg hk, jlookup, jlookup]
      by_cases hk' : k0 = k'
      · rw [if_pos hk', if_pos hk']
      · rw [if_neg hk', if_neg hk']
        exact ih k k' v hne

/-- C10 (counterexample): on a workflow whose `Check Storage Paths` node has
no `parameters` entry, `apply_fixes` raises (`node['parameters']` →
`KeyError`) instead of returning a workflow. -/
theorem claim10_counterexample :
    apply_fixes (Json.obj [("nodes", Json.arr [Json.obj [("name",
      Json.str "Check Storage Paths")]]), ("connections", Json.obj [])]) =
    Except.error "KeyError: parameters" := rfl

/-- C10 (amended): whenever `apply_fixes` returns (raises no exception), the
returned workflow has the same number of nodes, an unchanged `connections`
entry, and every node named none of the five fix targets is returned
unchanged, in place. -/
theorem claim10_amended_frame (w w' : Json)
    (hok : apply_fixes w = Except.ok w') :
    (getNodes w').map List.length = (getNodes w).map List.length ∧
    getConnections w' = getConnections w ∧
    (∀ ns ns', getNodes w = some ns → getNodes w' = some ns' →
      ∀ i (hi : i < ns.length) (hi' : i < ns'.length),
        (∀ t ∈ fixTargets, nodeName (ns.get ⟨i, hi⟩) ≠ some t) →
        ns'.get ⟨i, hi'⟩ = ns.get ⟨i, hi⟩) := by
  cases w with
  | obj kvs =>
    cases hnl : jlookup kvs "nodes" with
    | none =>
      rw [apply_fixes, hnl] at hok
      cases hok
      refine ⟨rfl, rfl, ?_⟩
      intro ns ns' hns hns' i hi hi' _
      rw [hns] at hns'
      cases hns'
      rfl
    | some jv =>
      cases jv with
      | arr nodes =>
        rw [apply_fixes, hnl] at hok
        dsimp only at hok
        cases h1 : exMapM fixNode1 nodes with
        | error e => rw [h1] at hok; cases hok
        | ok n1 =>
        rw [h1] at hok
        dsimp only at hok
        cases h2 : exMapM fixNode2 n1 with
        | error e => rw [h2] at hok; cases hok
        | ok n2 =>
        rw [h2] at hok
        dsimp only at hok
        cases h3 : exMapM fixNode3 n2 with
        | error e => rw [h3] at hok; cases hok
        | ok n3 =>
        rw [h3] at hok
        dsimp only at hok
        cases h4 : exMapM fixNode4 n3 with
        | error e => rw [h4] at hok; cases hok
        | ok n4 =>
        rw [h4] at hok
        dsimp only at hok
        cases h5 : exMapM fixNode5 n4 with
        | error e => rw [h5] at hok; cases hok
        | ok n5 =>
        rw [h5] at hok
        dsimp only at hok
        cases hok
        have l1 := exMapM_length h1
        have l2 := exMapM_length h2
        have l3 := exMapM_length h3
        have l4 := exMapM_length h4
        have l5 := exMapM_length h5
        have hnodes : getNodes (Json.obj kvs) = some nodes := by
          simp [getNodes, hnl]
        have hnodes' :
            getNodes (Json.obj (setKey kvs "nodes" (Json.arr n5))) = some n5 := by
          simp [getNodes, jlookup_setKey_self]
        refine ⟨?_, ?_, ?_⟩
        · rw [hnodes, hnodes']
          simp [l1, l2, l3, l4, l5]
        · show jlookup (setKey kvs "nodes" (Json.arr n5)) "connections" =
            jlookup kvs "connections"
          exact jlookup_setKey_ne kvs "nodes" "connections" _ (by decide)
        · intro ns ns' hns hns' i hi hi' hnames
          rw [hnodes] at hns
          rw [hnodes'] at hns'
          cases hns
          cases hns'
          have hi1 : i < n1.length := by omega
          have hi2 : i < n2.length := by omega
          have hi3 : i < n3.length := by omega
          have hi4 : i < n4.length := by omega
          have hf1 := exMapM_get h1 i hi hi1
          have e1 : n1.get ⟨i, hi1⟩ = nodes.get ⟨i, hi⟩ :=
            fixNode1_skip hf1 (hnames (Json.str "Check Storage Paths")
              (by simp [fixTargets]))
          have hf2 := exMapM_get h2 i hi1 hi2
          rw [e1] at hf2
          have e2 : n2.get ⟨i, hi2⟩ = nodes.get ⟨i, hi⟩ :=
            fixNode2_skip hf2 (hnames (Json.str "Generate Storage Path")
              (by simp [fixTargets]))
          have hf3 := exMapM_get h3 i hi2 hi3
          rw [e2] at hf3
          have e3 : n3.get ⟨i, hi3⟩ = nodes.get ⟨i, hi⟩ :=
            fixNode3_skip hf3 (hnames (Json.str "Get Storage Path ID")
              (by simp [fixTargets]))
          have hf4 := exMapM_get h4 i hi3 hi4
          rw [e3] at hf4
          have e4 : n4.get ⟨i, hi4⟩ = nodes.get ⟨i, hi⟩ :=
            fixNode4_skip hf4 (hnames (Json.str "Check Correspondent Exists")
              (by simp [fixTargets]))
          have hf5 := exMapM_get h5 i hi4 hi'
          rw [e4] at hf5
          exact fixNode5_skip hf5 (hnames (Json.str "Create Correspondent")
            (by simp [fixTargets]))
      | str s =>
        rw [apply_fixes, hnl] at hok
        dsimp only at hok
        by_cases hs : s = ""
        · rw [if_pos hs] at hok
          cases hok
          refine ⟨rfl, rfl, ?_⟩
          intro ns ns' hns hns' i hi hi' _
          rw [hns] at hns'
          cases hns'
          rfl
        · rw [if_neg hs] at hok
          cases hok
      | obj o =>
        rw [apply_fixes, hnl] at hok
        dsimp only at hok
        by_cases ho : o.isEmpty
        · rw [if_pos ho] at hok
          cases hok
          refine ⟨rfl, rfl, ?_⟩
          intro ns ns' hns hns' i hi hi' _
          rw [hns] at hns'
          cases hns'
          rfl
        · rw [if_neg ho] at hok
          cases hok
      | null => rw [apply_fixes, hnl] at hok; cases hok
      | bool b => rw [apply_fixes, hnl] at hok; cases hok
      | num n => rw [apply_fixes, hnl] at hok; cases hok
  | null => cases hok
  | bool b => cases hok
  | num n => cases hok
  | str s => cases hok
  | arr xs => cases hok

/-- Witness for the amended C10 at `exampleWorkflow`: the patch succeeds, the
node count and connections survive, and the untargeted node is unchanged. -/
theorem claim10_witness :
    (getNodes exampleWorkflowFixed).map List.length =
      (getNodes exampleWorkflow).map List.length ∧
    getConnections exampleWorkflowFixed = getConnections exampleWorkflow ∧
    (∀ ns ns', getNodes exampleWorkflow = some ns →
      getNodes exampleWorkflowFixed = some ns' →
      ∀ i (hi : i < ns.length) (hi' : i < ns'.length),
        (∀ t ∈ fixTargets, nodeName (ns.get ⟨i, hi⟩) ≠ some t) →
        ns'.get ⟨i, hi'⟩ = ns.get ⟨i, hi⟩) :=
  claim10_amended_frame exampleWorkflow exampleWorkflowFixed (by rfl)

end V142.Py
